import Mathlib

/-!
Verification development for the easy-http-media-server repository.

The request-to-filesystem resolution and directory-listing pipeline of
server.go and config.go is shallowly embedded here.  Paths and names are
modelled as lists of characters (each character standing for one byte of a
Go string; the concrete inputs used below are ASCII, where the two views
agree).  The Go standard-library functions the source calls
(url.QueryUnescape, url.PathEscape, path.Clean, path.Join, filepath.Join,
filepath.Abs, filepath.Ext) are embedded by their documented byte-level
algorithms; filesystem access (os.Stat, os.ReadDir) is passed in as
explicit data, and the MIME table (mime.TypeByExtension) is a parameter,
matching the spec's view of it as an external collaborator.
-/

namespace MediaServer

/-- A Go string viewed as its byte/character sequence. -/
abbrev Str := List Char

/-- One path segment (the text between two separators). -/
abbrev Seg := List Char

/-! ## Embedding of the Go standard-library path helpers used by server.go -/

/-- True when the path begins with the separator, as Go's path.IsAbs. -/
def isAbsL (p : Str) : Bool := p.head? = some '/'

/-- Split a character list at every separator character. -/
def splitSlash : Str → List Seg
  | [] => [[]]
  | c :: rest =>
    if c = '/' then [] :: splitSlash rest
    else
      match splitSlash rest with
      | s :: ss => (c :: s) :: ss
      | [] => [[c]]

/-- Join segments back with single separators (no leading separator). -/
def joinSegs : List Seg → Str
  | [] => []
  | [s] => s
  | s :: rest => s ++ '/' :: joinSegs rest

/-- One step of Go path.Clean's segment processing, with the kept segments
accumulated in reverse on a stack.  Empty and dot segments are dropped; a
dot-dot segment pops the stack when possible, is dropped at the root of a
rooted path, and is kept for a relative path that has run out of segments
to pop. -/
def stepSeg (rooted : Bool) (stack : List Seg) (s : Seg) : List Seg :=
  if s = [] || s = ['.'] then stack
  else if s = ['.', '.'] then
    if stack = [] then (if rooted then [] else [['.', '.']])
    else if stack.head? = some ['.', '.'] then ['.', '.'] :: stack else stack.tail
  else s :: stack

/-- The cleaned segment sequence of a path, in order. -/
def cleanSegs (rooted : Bool) (segs : List Seg) : List Seg :=
  (segs.foldl (stepSeg rooted) []).reverse

/-- The segments path.Clean keeps when no dot-dot is present: nonempty
and not the dot segment. -/
def keepSeg (s : Seg) : Bool := !(s = [] || s = ['.'])

/-- A segment that survives cleaning of a rooted path: nonempty, not
dot, not dot-dot. -/
def goodSeg (s : Seg) : Prop := s ≠ [] ∧ s ≠ ['.'] ∧ s ≠ ['.', '.']

/-- Embedding of Go path.Clean (identical to filepath.Clean on Unix):
lexical normalization resolving dot and dot-dot segments and collapsing
separators, returning a dot for an empty relative result. -/
def pathClean (p : Str) : Str :=
  if p = [] then ['.']
  else if isAbsL p then '/' :: joinSegs (cleanSegs true (splitSlash p))
  else
    let r := joinSegs (cleanSegs false (splitSlash p))
    if r = [] then ['.'] else r

/-- Embedding of Go filepath.Join for two elements (Unix rules): leading
empty elements are skipped, the rest are joined with a separator and
cleaned. -/
def filepathJoin (a b : Str) : Str :=
  if a = [] then (if b = [] then [] else pathClean b)
  else pathClean (a ++ '/' :: b)

/-- Embedding of Go path.Join for two elements: empty elements are
skipped, the rest are joined with a separator and cleaned. -/
def pathJoin (a b : Str) : Str :=
  if a = [] then (if b = [] then [] else pathClean b)
  else if b = [] then pathClean a
  else pathClean (a ++ '/' :: b)

/-- Embedding of Go filepath.Abs: an absolute path is cleaned, a relative
path is joined onto the working directory.  The working directory is an
explicit parameter. -/
def filepathAbs (cwd p : Str) : Str :=
  if isAbsL p then pathClean p else filepathJoin cwd p

/-- Embedding of Go filepath.Ext: the suffix starting at the final dot of
the last path element, scanning from the right and stopping at a
separator. -/
def extAux : Str → Str → Str
  | [], _ => []
  | c :: rest, acc =>
    if c = '/' then []
    else if c = '.' then '.' :: acc
    else extAux rest (c :: acc)

/-- filepath.Ext on a character list. -/
def extL (p : Str) : Str := extAux p.reverse []

/-! ## Embedding of net/url escaping as used by server.go -/

/-- Hexadecimal digit test, as Go net/url ishex. -/
def isHexDigit (c : Char) : Bool :=
  ('0' ≤ c && c ≤ '9') || ('a' ≤ c && c ≤ 'f') || ('A' ≤ c && c ≤ 'F')

/-- Hexadecimal digit value, as Go net/url unhex. -/
def hexVal (c : Char) : Nat :=
  if '0' ≤ c && c ≤ '9' then c.toNat - '0'.toNat
  else if 'a' ≤ c && c ≤ 'f' then c.toNat - 'a'.toNat + 10
  else c.toNat - 'A'.toNat + 10

/-- Upper-case hexadecimal digit for a value below sixteen, as Go
net/url's upperhex table. -/
def hexUpper (n : Nat) : Char :=
  if n < 10 then Char.ofNat ('0'.toNat + n) else Char.ofNat ('A'.toNat + n - 10)

/-- Embedding of Go url.QueryUnescape: percent escapes with two valid
hexadecimal digits are decoded, a plus sign becomes a space, an
incomplete or invalid escape is an error (none). -/
def queryUnescape : Str → Option Str
  | [] => some []
  | c :: rest =>
    if c = '%' then
      match rest with
      | a :: b :: rest2 =>
        if isHexDigit a && isHexDigit b then
          (queryUnescape rest2).map (fun t => Char.ofNat (16 * hexVal a + hexVal b) :: t)
        else none
      | _ => none
    else if c = '+' then (queryUnescape rest).map (fun t => ' ' :: t)
    else (queryUnescape rest).map (fun t => c :: t)

/-- Characters Go url.PathEscape leaves unescaped (mode
encodePathSegment): alphanumerics, the unreserved marks, and the
sub-delimiters allowed inside a path segment.  Everything else, notably
the separator, space and the percent sign, is escaped — but not the plus
sign. -/
def shouldEscapePS (c : Char) : Bool :=
  if ('a' ≤ c && c ≤ 'z') || ('A' ≤ c && c ≤ 'Z') || ('0' ≤ c && c ≤ '9') then false
  else if c = '-' || c = '_' || c = '.' || c = '~' then false
  else if c = '$' || c = '&' || c = '+' || c = ':' || c = '=' || c = '@' then false
  else true

/-- Embedding of Go url.PathEscape on byte-level characters: each byte
that must be escaped is replaced by a percent sign and two upper-case
hexadecimal digits, every other byte is copied. -/
def pathEscape : Str → Str
  | [] => []
  | c :: rest =>
    if shouldEscapePS c then
      '%' :: hexUpper (c.toNat / 16 % 16) :: hexUpper (c.toNat % 16) :: pathEscape rest
    else c :: pathEscape rest

/-- The plus-to-space rewriting that url.QueryUnescape applies outside
percent escapes. -/
def plusToSpace (s : Str) : Str := s.map (fun c => if c = '+' then ' ' else c)

/-! ## The request resolution pipeline of server.go handleRequest -/

/-- Rejection reasons of the resolution steps of handleRequest. -/
inductive ResolveErr where
  | malformedPath
  | outsideRoot
  deriving DecidableEq

instance {ε α : Type} [DecidableEq ε] [DecidableEq α] : DecidableEq (Except ε α) :=
  fun x y =>
    match x, y with
    | .ok a, .ok b =>
      if h : a = b then .isTrue (by rw [h])
      else .isFalse (fun hh => h (Except.ok.inj hh))
    | .error a, .error b =>
      if h : a = b then .isTrue (by rw [h])
      else .isFalse (fun hh => h (Except.error.inj hh))
    | .ok _, .error _ => .isFalse (fun hh => Except.noConfusion hh)
    | .error _, .ok _ => .isFalse (fun hh => Except.noConfusion hh)

/-- Embedding of the path steps of server.go handleRequest (lines
233-264): decode the raw URL path with url.QueryUnescape (failure is a
400), clean it with path.Clean mapping a lone dot to the root marker,
join it onto the configured media directory with filepath.Join, take
absolute forms of the media directory and of the joined path with
filepath.Abs, and accept when the absolute media directory is a string
prefix (strings.HasPrefix) of the absolute joined path, rejecting with a
403 otherwise.  On success the handler goes on to stat and serve the
joined path. -/
def resolvePath (cwd root decoded : Str) : Except ResolveErr Str :=
  let cleaned := pathClean decoded
  let cleanPath := if cleaned = ['.'] then ['/'] else cleaned
  let fullPath := filepathJoin root cleanPath
  let absMediaDir := filepathAbs cwd root
  let absFullPath := filepathAbs cwd fullPath
  if absMediaDir.isPrefixOf absFullPath then .ok fullPath
  else .error .outsideRoot

def resolveRequest (cwd root raw : Str) : Except ResolveErr Str :=
  match queryUnescape raw with
  | none => .error .malformedPath
  | some decoded => resolvePath cwd root decoded

/-- The nonempty path components of a path: its separator-split segments
with the empty segments dropped.  Two paths are compared component-wise
through this view. -/
def segsOf (p : Str) : List Seg := (splitSlash p).filter (fun s => s ≠ ([] : List Char))

/-- Component-wise containment of a path inside a root, the relation the
spec's section 4.1 mandates for the containment check: the path is
absolute and the root's component sequence is a prefix of the path's
component sequence.  A sibling such as /data-other is not within /data
under this relation even though it matches as a string prefix. -/
def isWithinRoot (root p : Str) : Bool :=
  isAbsL p && (segsOf root).isPrefixOf (segsOf p)

/-- Embedding of config.go IsValidMediaPath (lines 122-142): absolute
media directory via filepath.Abs, filepath.Clean of the request path, an
early accept for the dot and root forms, filepath.Join plus filepath.Abs
for the candidate, and a strings.HasPrefix containment test. -/
def isValidMediaPath (cwd mediaDir requestPath : Str) : Bool :=
  let absMediaPath := filepathAbs cwd mediaDir
  let cleanPath := pathClean requestPath
  if cleanPath = ['.'] || cleanPath = ['/'] then true
  else
    let fullPath := filepathJoin absMediaPath cleanPath
    let absFullPath := filepathAbs cwd fullPath
    absMediaPath.isPrefixOf absFullPath

/-! ## The directory-listing builder of server.go serveDirectory -/

/-- A raw directory entry as returned by os.ReadDir, together with
whether its entry.Info() call fails (the loop skips such entries). -/
structure DirEntry where
  name : Str
  size : Int
  modTime : Int
  isDir : Bool
  infoErr : Bool
  deriving DecidableEq

/-- The FileInfo projection of server.go (lines 21-29): the display
record for one directory entry. -/
structure FileInfo where
  Name : Str
  Path : Str
  Size : Int
  ModTime : Int
  IsDir : Bool
  MimeType : Str
  EncodedPath : Str
  deriving DecidableEq

/-- The fallback content type of server.go. -/
def octetStream : Str := "application/octet-stream".data

/-- The record-building step of the serveDirectory loop (lines 296-326):
entries whose Info call fails are skipped, entries whose name begins with
a dot are skipped, the link path is path.Join of the request path and the
name, the content type comes from the MIME collaborator keyed by
filepath.Ext with the generic binary fallback, and the link target is
url.PathEscape of the link path. -/
def mkRecord (mimeOf : Str → Str) (urlPath : Str) (e : DirEntry) : Option FileInfo :=
  if e.infoErr then none
  else if e.name.head? = some '.' then none
  else
    let filePath := pathJoin urlPath e.name
    let mt :=
      if e.isDir then []
      else
        let m := mimeOf (extL e.name)
        if m = [] then octetStream else m
    some
      { Name := e.name
        Path := filePath
        Size := e.size
        ModTime := e.modTime
        IsDir := e.isDir
        MimeType := mt
        EncodedPath := pathEscape filePath }

/-- ASCII lower-casing of one character, the effect of strings.ToLower on
the ASCII names compared by the sort. -/
def asciiLower (c : Char) : Char :=
  if 'A' ≤ c && c ≤ 'Z' then Char.ofNat (c.toNat + 32) else c

/-- The lower-cased name a record is sorted by. -/
def lowerName (f : FileInfo) : Str := f.Name.map asciiLower

/-- Byte-wise lexicographic strict comparison, the order of Go's string
less-than. -/
def lexLt : Str → Str → Bool
  | [], [] => false
  | [], _ :: _ => true
  | _ :: _, [] => false
  | a :: as, b :: bs =>
    if a.toNat < b.toNat then true
    else if b.toNat < a.toNat then false
    else lexLt as bs

/-- The comparison closure passed to sort.Slice in serveDirectory (lines
329-334): records with different directory flags order the directory
first, records with equal flags compare their lower-cased names. -/
def lessFileInfo (a b : FileInfo) : Bool :=
  if a.IsDir ≠ b.IsDir then a.IsDir
  else lexLt (lowerName a) (lowerName b)

/-- The non-strict order induced by the sort.Slice comparison: a may
stand before b exactly when b is not strictly less than a. -/
def fileLE (a b : FileInfo) : Prop := lessFileInfo b a = false

/-- The sort key the comparison closure effectively orders by: the
directory flag (directories ranked before files) paired with the
lower-cased name. -/
def fileKey (f : FileInfo) : Nat × Str := (if f.IsDir then 0 else 1, lowerName f)

/-- Strict lexicographic order on sort keys. -/
def keyLt (a b : Nat × Str) : Bool :=
  if a.1 < b.1 then true
  else if b.1 < a.1 then false
  else lexLt a.2 b.2

instance : DecidableRel fileLE := fun a b => by
  unfold fileLE; infer_instance

/-- The sorting step of serveDirectory: a comparison sort of the records
by the sort.Slice closure.  Go's sort.Slice guarantees only that the
result is a permutation ordered by the comparison; this model realizes it
with an insertion sort, which satisfies exactly that contract. -/
def sortFiles (l : List FileInfo) : List FileInfo := List.insertionSort fileLE l

/-- The record list serveDirectory renders for one directory: the
per-entry projection in readdir order, then the sort. -/
def buildListing (mimeOf : Str → Str) (urlPath : Str) (entries : List DirEntry) :
    List FileInfo :=
  sortFiles (entries.filterMap (mkRecord mimeOf urlPath))

/-! ## Response dispatch of handleRequest -/

/-- Outcome of the os.Stat call on the resolved path. -/
inductive StatResult where
  | found (isDir : Bool)
  | notExist
  | ioError (msg : String)
  deriving DecidableEq

/-- An HTTP reply as observed by the client plus the log lines the
handler emits.  The body of a successful serve (listing page or file
bytes) is out of scope here and left empty. -/
structure HttpReply where
  status : Nat
  body : String
  logged : List String
  deriving DecidableEq

/-- The stat-and-dispatch step of handleRequest (lines 266-284): a
missing target yields the generic 404 page with the path only logged, any
other stat error yields a generic 500 body with the cause only logged,
and an existing target is served (directory listing or file). -/
def dispatchStat (fullPath rawPath : Str) (st : StatResult) : HttpReply :=
  match st with
  | .notExist =>
    { status := 404
      body := "404 page not found"
      logged := ["File not found: " ++ String.mk fullPath ++
        " (requested: " ++ String.mk rawPath ++ ")"] }
  | .ioError msg =>
    { status := 500
      body := "Internal server error"
      logged := ["Error accessing file " ++ String.mk fullPath ++ ": " ++ msg] }
  | .found _ =>
    { status := 200, body := "", logged := [] }

/-- The whole handleRequest observable behavior for one request, with the
filesystem's stat answer supplied as a function of the path. -/
def handleRequestModel (cwd root raw : Str) (st : Str → StatResult) : HttpReply :=
  match resolveRequest cwd root raw with
  | .error .malformedPath => { status := 400, body := "Invalid URL path", logged := [] }
  | .error .outsideRoot => { status := 403, body := "Forbidden", logged := [] }
  | .ok p => dispatchStat p raw (st p)

/-- The server as seen through the CORS middleware (lines 135-148) plus
handleRequest: an OPTIONS request is answered 200 by the middleware, and
every other method is passed to handleRequest, which never reads the
method. -/
def serverStatus (method : String) (cwd root raw : Str) (st : Str → StatResult) : Nat :=
  if method = "OPTIONS" then 200
  else (handleRequestModel cwd root raw st).status

end MediaServer

namespace MediaServer

example : pathClean "/../a".data = "/a".data := by decide
example : pathClean "a/../../b".data = "../b".data := by decide
example : pathClean "/".data = "/".data := by decide
example : pathClean "//a//b/".data = "/a/b".data := by decide
example : pathClean "".data = ".".data := by decide
example : pathClean "a/..".data = ".".data := by decide
example : filepathJoin "/data".data "../data-other".data = "/data-other".data := by decide
example : queryUnescape "/%2e%2e/a+b".data = some "/../a b".data := by decide
example : queryUnescape "/%zz".data = none := by decide
example : queryUnescape "%".data = none := by decide
example : pathEscape "/a+b c.mp4".data = "%2Fa+b%20c.mp4".data := by decide
example : extL "movie.tar.mp4".data = ".mp4".data := by decide
example : extL "noext".data = "".data := by decide

example : resolveRequest "/".data "/media".data "/../../etc/passwd".data =
    .ok "/media/etc/passwd".data := by decide
example : resolveRequest "/".data "/media".data "/%zz".data = .error .malformedPath := by
  decide
example : resolveRequest "/".data "/media".data "/sub/a.mp4".data =
    .ok "/media/sub/a.mp4".data := by decide
example : isValidMediaPath "/".data "/data".data "../data-other".data = true := by decide
example : isWithinRoot "/data".data "/data-other".data = false := by decide
example : isWithinRoot "/data".data "/data/x".data = true := by decide

/-! ## Toolkit: splitting and joining path segments -/

theorem splitSlash_ne_nil (p : Str) : splitSlash p ≠ [] := by
  induction p with
  | nil => simp [splitSlash]
  | cons c rest ih =>
    simp only [splitSlash]
    by_cases h : c = '/'
    · simp [h]
    · simp only [h, if_false]
      cases hs : splitSlash rest with
      | nil => simp
      | cons s ss => simp

theorem mem_splitSlash_no_slash (p : Str) : ∀ s ∈ splitSlash p, '/' ∉ s := by
  induction p with
  | nil => intro s hs; simp [splitSlash] at hs; simp [hs]
  | cons c rest ih =>
    intro s hs
    simp only [splitSlash] at hs
    by_cases h : c = '/'
    · simp only [h, if_true, List.mem_cons] at hs
      rcases hs with h1 | h2
      · simp [h1]
      · exact ih s h2
    · simp only [h, if_false] at hs
      cases hsp : splitSlash rest with
      | nil => exact absurd hsp (splitSlash_ne_nil rest)
      | cons t ts =>
        rw [hsp] at hs
        rcases List.mem_cons.mp hs with h1 | h2
        · subst h1
          intro hmem
          rcases List.mem_cons.mp hmem with h3 | h4
          · exact h h3.symm
          · exact ih t (by rw [hsp]; exact List.mem_cons_self t ts) h4
        · exact ih s (by rw [hsp]; exact List.mem_cons_of_mem t h2)

theorem splitSlash_append (a b : Str) :
    splitSlash (a ++ '/' :: b) = splitSlash a ++ splitSlash b := by
  induction a with
  | nil => simp [splitSlash]
  | cons c rest ih =>
    by_cases h : c = '/'
    · simp [splitSlash, h, ih]
    · simp only [List.cons_append, splitSlash, h, if_false]
      simp only [List.append_eq]
      rw [ih]
      cases hs : splitSlash rest with
      | nil => exact absurd hs (splitSlash_ne_nil rest)
      | cons t ts => simp

theorem splitSlash_no_slash (s : Str) (h : '/' ∉ s) : splitSlash s = [s] := by
  induction s with
  | nil => simp [splitSlash]
  | cons c rest ih =>
    have hc : c ≠ '/' := fun hc => h (by simp [hc])
    have hr : '/' ∉ rest := fun hr => h (List.mem_cons_of_mem c hr)
    simp [splitSlash, hc, ih hr]

theorem splitSlash_joinSegs (segs : List Seg) (hne : segs ≠ [])
    (h : ∀ s ∈ segs, '/' ∉ s) : splitSlash (joinSegs segs) = segs := by
  induction segs with
  | nil => exact absurd rfl hne
  | cons s rest ih =>
    cases rest with
    | nil => exact splitSlash_no_slash s (h s (List.mem_cons_self s []))
    | cons t ts =>
      have : joinSegs (s :: t :: ts) = s ++ '/' :: joinSegs (t :: ts) := rfl
      rw [this, splitSlash_append,
        splitSlash_no_slash s (h s (List.mem_cons_self s (t :: ts))),
        ih (by simp) (fun x hx => h x (List.mem_cons_of_mem s hx))]
      rfl

theorem joinSegs_append (gs hs : List Seg) (hg : gs ≠ []) (hh : hs ≠ []) :
    joinSegs (gs ++ hs) = joinSegs gs ++ '/' :: joinSegs hs := by
  induction gs with
  | nil => exact absurd rfl hg
  | cons s rest ih =>
    cases rest with
    | nil =>
      cases hs with
      | nil => exact absurd rfl hh
      | cons t ts => simp [joinSegs]
    | cons t ts =>
      have h1 : joinSegs ((s :: t :: ts) ++ hs) = s ++ '/' :: joinSegs ((t :: ts) ++ hs) := by
        cases hs with
        | nil => exact absurd rfl hh
        | cons u us => rfl
      rw [h1, ih (by simp)]
      show s ++ '/' :: (joinSegs (t :: ts) ++ '/' :: joinSegs hs) =
        (s ++ '/' :: joinSegs (t :: ts)) ++ '/' :: joinSegs hs
      simp

/-! ## Toolkit: the segment cleaning of path.Clean -/

theorem foldl_stepSeg_no_dotdot (rooted : Bool) (segs : List Seg)
    (h : ∀ s ∈ segs, s ≠ ['.', '.']) (acc : List Seg) :
    segs.foldl (stepSeg rooted) acc = (segs.filter keepSeg).reverse ++ acc := by
  induction segs generalizing acc with
  | nil => simp
  | cons s rest ih =>
    have hs : s ≠ ['.', '.'] := h s (List.mem_cons_self s rest)
    have hrest : ∀ x ∈ rest, x ≠ ['.', '.'] := fun x hx => h x (List.mem_cons_of_mem s hx)
    simp only [List.foldl_cons]
    by_cases hk : s = [] ∨ s = ['.']
    · have h1 : stepSeg rooted acc s = acc := by
        unfold stepSeg
        rcases hk with h2 | h2 <;> simp [h2]
      have h2 : keepSeg s = false := by
        unfold keepSeg
        rcases hk with h2 | h2 <;> simp [h2]
      rw [h1, ih hrest, List.filter_cons, h2]
      simp
    · push_neg at hk
      have h1 : stepSeg rooted acc s = s :: acc := by
        unfold stepSeg
        simp [hk.1, hk.2, hs]
      have h2 : keepSeg s = true := by
        unfold keepSeg
        simp [hk.1, hk.2]
      rw [h1, ih hrest, List.filter_cons, h2]
      simp

theorem cleanSegs_no_dotdot (rooted : Bool) (segs : List Seg)
    (h : ∀ s ∈ segs, s ≠ ['.', '.']) :
    cleanSegs rooted segs = segs.filter keepSeg := by
  unfold cleanSegs
  rw [foldl_stepSeg_no_dotdot rooted segs h []]
  simp

theorem mem_foldl_stepSeg (rooted : Bool) (segs : List Seg) (acc : List Seg) (x : Seg)
    (hx : x ∈ segs.foldl (stepSeg rooted) acc) :
    x ∈ acc ∨ x ∈ segs ∨ x = ['.', '.'] := by
  induction segs generalizing acc with
  | nil => simp at hx; exact Or.inl hx
  | cons s rest ih =>
    simp only [List.foldl_cons] at hx
    rcases ih (stepSeg rooted acc s) hx with h1 | h2 | h3
    · -- x comes from the stack after one step
      unfold stepSeg at h1
      by_cases hk : s = [] || s = ['.']
      · rw [if_pos hk] at h1; exact Or.inl h1
      · rw [if_neg hk] at h1
        by_cases hd : s = ['.', '.']
        · rw [if_pos hd] at h1
          cases hacc : acc with
          | nil =>
            rw [hacc] at h1
            by_cases hr : rooted
            · simp [hr] at h1
            · simp [hr] at h1; right; right; exact h1
          | cons t ts =>
            rw [hacc] at h1
            rw [if_neg (by simp)] at h1
            by_cases ht : t = ['.', '.']
            · rw [if_pos (by simp [ht])] at h1
              rcases List.mem_cons.mp h1 with h4 | h4
              · right; right; exact h4
              · left; exact h4
            · rw [if_neg (by simp [ht])] at h1
              left
              exact List.mem_cons_of_mem t h1
        · rw [if_neg hd] at h1
          rcases List.mem_cons.mp h1 with h4 | h4
          · right; left; rw [h4]; exact List.mem_cons_self s rest
          · left; exact h4
    · right; left; exact List.mem_cons_of_mem s h2
    · right; right; exact h3

theorem good_foldl_stepSeg (segs acc : List Seg) (hacc : ∀ x ∈ acc, goodSeg x) :
    ∀ x ∈ segs.foldl (stepSeg true) acc, goodSeg x := by
  induction segs generalizing acc with
  | nil => simpa using hacc
  | cons s rest ih =>
    simp only [List.foldl_cons]
    apply ih
    intro x hx
    unfold stepSeg at hx
    by_cases hk : s = [] || s = ['.']
    · rw [if_pos hk] at hx; exact hacc x hx
    · rw [if_neg hk] at hx
      by_cases hd : s = ['.', '.']
      · rw [if_pos hd] at hx
        cases hacc2 : acc with
        | nil => rw [hacc2] at hx; simp at hx
        | cons t ts =>
          rw [hacc2] at hx
          have ht : t ≠ ['.', '.'] :=
            (hacc t (by rw [hacc2]; exact List.mem_cons_self t ts)).2.2
          rw [if_neg (by simp), if_neg (by simp [ht])] at hx
          exact hacc x (by rw [hacc2]; exact List.mem_cons_of_mem t hx)
      · rw [if_neg hd] at hx
        rcases List.mem_cons.mp hx with h4 | h4
        · subst h4
          simp only [Bool.or_eq_true, decide_eq_true_eq] at hk
          push_neg at hk
          exact ⟨hk.1, hk.2, hd⟩
        · exact hacc x h4

theorem cleanSegs_good (segs : List Seg) : ∀ x ∈ cleanSegs true segs, goodSeg x := by
  intro x hx
  unfold cleanSegs at hx
  rw [List.mem_reverse] at hx
  exact good_foldl_stepSeg segs [] (by simp) x hx

theorem cleanSegs_no_slash (segs : List Seg) (h : ∀ s ∈ segs, '/' ∉ s) :
    ∀ x ∈ cleanSegs true segs, '/' ∉ x := by
  intro x hx
  unfold cleanSegs at hx
  rw [List.mem_reverse] at hx
  rcases mem_foldl_stepSeg true segs [] x hx with h1 | h2 | h3
  · simp at h1
  · exact h x h2
  · rw [h3]; decide

/-! ## Toolkit: canonical rooted paths -/

theorem pathClean_rooted (p : Str) (h : isAbsL p = true) :
    pathClean p = '/' :: joinSegs (cleanSegs true (splitSlash p)) := by
  have hne : p ≠ [] := by
    intro he
    rw [he] at h
    simp [isAbsL] at h
  unfold pathClean
  rw [if_neg hne, if_pos h]

theorem splitSlash_cons_slash (t : Str) : splitSlash ('/' :: t) = [] :: splitSlash t := by
  simp [splitSlash]

theorem filter_keep_block (gs : List Seg) (hg : ∀ x ∈ gs, goodSeg x ∧ '/' ∉ x) :
    (([] : Seg) :: splitSlash (joinSegs gs)).filter keepSeg = gs := by
  cases gs with
  | nil => decide
  | cons s rest =>
    rw [splitSlash_joinSegs _ (by simp) (fun x hx => (hg x hx).2)]
    rw [List.filter_cons, show keepSeg ([] : Seg) = false from rfl]
    simp only [Bool.false_eq_true, if_false]
    apply List.filter_eq_self.mpr
    intro a ha
    have hga := (hg a ha).1
    unfold keepSeg
    simp [hga.1, hga.2.1]

theorem no_dotdot_block (gs : List Seg) (hg : ∀ x ∈ gs, goodSeg x ∧ '/' ∉ x) :
    ∀ x ∈ (([] : Seg) :: splitSlash (joinSegs gs)), x ≠ ['.', '.'] := by
  intro x hx
  rcases List.mem_cons.mp hx with h1 | h2
  · rw [h1]; decide
  · cases gs with
    | nil =>
      simp [joinSegs, splitSlash] at h2
      rw [h2]; decide
    | cons s rest =>
      rw [splitSlash_joinSegs _ (by simp) (fun y hy => (hg y hy).2)] at h2
      exact (hg x h2).1.2.2

theorem cleanSegs_block (gs : List Seg) (hg : ∀ x ∈ gs, goodSeg x ∧ '/' ∉ x) :
    cleanSegs true (([] : Seg) :: splitSlash (joinSegs gs)) = gs := by
  rw [cleanSegs_no_dotdot true _ (no_dotdot_block gs hg), filter_keep_block gs hg]

theorem pathClean_canon (gs : List Seg) (hg : ∀ x ∈ gs, goodSeg x ∧ '/' ∉ x) :
    pathClean ('/' :: joinSegs gs) = '/' :: joinSegs gs := by
  rw [pathClean_rooted _ (by simp [isAbsL]), splitSlash_cons_slash, cleanSegs_block gs hg]

theorem filepathJoin_canon (gs hs : List Seg)
    (hg : ∀ x ∈ gs, goodSeg x ∧ '/' ∉ x) (hh : ∀ x ∈ hs, goodSeg x ∧ '/' ∉ x) :
    filepathJoin ('/' :: joinSegs gs) ('/' :: joinSegs hs) = '/' :: joinSegs (gs ++ hs) := by
  unfold filepathJoin
  rw [if_neg (by simp)]
  rw [pathClean_rooted _ (by simp [isAbsL])]
  rw [show ('/' :: joinSegs gs) ++ '/' :: ('/' :: joinSegs hs) =
    '/' :: (joinSegs gs ++ '/' :: ('/' :: joinSegs hs)) from rfl]
  rw [splitSlash_cons_slash, splitSlash_append]
  rw [splitSlash_cons_slash]
  have hdd : ∀ x ∈ (([] : Seg) ::
      (splitSlash (joinSegs gs) ++ ([] : Seg) :: splitSlash (joinSegs hs))), x ≠ ['.', '.'] := by
    intro x hx
    rcases List.mem_cons.mp hx with h1 | h2
    · rw [h1]; decide
    · rcases List.mem_append.mp h2 with h3 | h4
      · exact no_dotdot_block gs hg x (List.mem_cons_of_mem _ h3)
      · exact no_dotdot_block hs hh x h4
  rw [cleanSegs_no_dotdot true _ hdd]
  rw [List.filter_cons, show keepSeg ([] : Seg) = false from rfl]
  simp only [Bool.false_eq_true, if_false, List.filter_append]
  have e1 : (splitSlash (joinSegs gs)).filter keepSeg = gs := by
    have := filter_keep_block gs hg
    rw [List.filter_cons, show keepSeg ([] : Seg) = false from rfl] at this
    simpa using this
  have e2 : (([] : Seg) :: splitSlash (joinSegs hs)).filter keepSeg = hs :=
    filter_keep_block hs hh
  rw [e1, e2]

theorem filepathJoin_canon_seg (gs : List Seg) (n : Seg)
    (hg : ∀ x ∈ gs, goodSeg x ∧ '/' ∉ x) (hn : goodSeg n ∧ '/' ∉ n) :
    filepathJoin ('/' :: joinSegs gs) n = '/' :: joinSegs (gs ++ [n]) := by
  unfold filepathJoin
  rw [if_neg (by simp)]
  rw [pathClean_rooted _ (by simp [isAbsL])]
  rw [show ('/' :: joinSegs gs) ++ '/' :: n = '/' :: (joinSegs gs ++ '/' :: n) from rfl]
  rw [splitSlash_cons_slash, splitSlash_append, splitSlash_no_slash n hn.2]
  have hdd : ∀ x ∈ (([] : Seg) :: (splitSlash (joinSegs gs) ++ [n])), x ≠ ['.', '.'] := by
    intro x hx
    rcases List.mem_cons.mp hx with h1 | h2
    · rw [h1]; decide
    · rcases List.mem_append.mp h2 with h3 | h4
      · exact no_dotdot_block gs hg x (List.mem_cons_of_mem _ h3)
      · rw [List.mem_singleton.mp h4]; exact hn.1.2.2
  rw [cleanSegs_no_dotdot true _ hdd]
  rw [List.filter_cons, show keepSeg ([] : Seg) = false from rfl]
  simp only [Bool.false_eq_true, if_false, List.filter_append]
  have e1 : (splitSlash (joinSegs gs)).filter keepSeg = gs := by
    have := filter_keep_block gs hg
    rw [List.filter_cons, show keepSeg ([] : Seg) = false from rfl] at this
    simpa using this
  have e2 : ([n] : List Seg).filter keepSeg = [n] := by
    apply List.filter_eq_self.mpr
    intro a ha
    rw [List.mem_singleton.mp ha]
    unfold keepSeg
    simp [hn.1.1, hn.1.2.1]
  rw [e1, e2]

theorem pathJoin_canon_seg (us : List Seg) (n : Seg)
    (hu : ∀ x ∈ us, goodSeg x ∧ '/' ∉ x) (hn : goodSeg n ∧ '/' ∉ n) :
    pathJoin ('/' :: joinSegs us) n = '/' :: joinSegs (us ++ [n]) := by
  unfold pathJoin
  rw [if_neg (by simp), if_neg hn.1.1]
  have := filepathJoin_canon_seg us n hu hn
  unfold filepathJoin at this
  rw [if_neg (by simp)] at this
  exact this

theorem segsOf_canon (gs : List Seg) (hg : ∀ x ∈ gs, goodSeg x ∧ '/' ∉ x) :
    segsOf ('/' :: joinSegs gs) = gs := by
  unfold segsOf
  rw [splitSlash_cons_slash]
  cases gs with
  | nil => decide
  | cons s rest =>
    rw [splitSlash_joinSegs _ (by simp) (fun x hx => (hg x hx).2)]
    rw [List.filter_cons]
    simp only [ne_eq, decide_not, Bool.not_eq_eq_eq_not, Bool.not_true, decide_eq_false_iff_not,
      not_not]
    rw [if_neg (by simp)]
    apply List.filter_eq_self.mpr
    intro a ha
    simp [(hg a ha).1.1]

theorem exists_canon (p : Str) (h1 : isAbsL p = true) (h2 : pathClean p = p) :
    ∃ gs, (∀ x ∈ gs, goodSeg x ∧ '/' ∉ x) ∧ p = '/' :: joinSegs gs := by
  refine ⟨cleanSegs true (splitSlash p), ?_, ?_⟩
  · intro x hx
    exact ⟨cleanSegs_good _ x hx, cleanSegs_no_slash _ (mem_splitSlash_no_slash p) x hx⟩
  · exact h2.symm.trans (pathClean_rooted p h1)

theorem isPrefixOf_canon (gs hs : List Seg) :
    List.isPrefixOf ('/' :: joinSegs gs) ('/' :: joinSegs (gs ++ hs)) = true := by
  rw [List.isPrefixOf_iff_prefix]
  cases hhs : hs with
  | nil => simp
  | cons t ts =>
    cases hgs : gs with
    | nil =>
      simp only [List.nil_append]
      exact ⟨joinSegs (t :: ts), rfl⟩
    | cons u us =>
      rw [joinSegs_append (u :: us) (t :: ts) (by simp) (by simp)]
      exact ⟨'/' :: joinSegs (t :: ts), by simp⟩

/-! ## Toolkit: decoding -/

theorem queryUnescape_cons (c : Char) (rest : Str) (h1 : c ≠ '%') (h2 : c ≠ '+') :
    queryUnescape (c :: rest) = (queryUnescape rest).map (fun t => c :: t) := by
  conv_lhs => unfold queryUnescape
  rw [if_neg h1, if_neg h2]

theorem queryUnescape_no_pct (s : Str) (h : '%' ∉ s) :
    queryUnescape s = some (plusToSpace s) := by
  induction s with
  | nil => rfl
  | cons c rest ih =>
    have hc : c ≠ '%' := fun hc => h (by simp [hc])
    have hr : '%' ∉ rest := fun hr => h (List.mem_cons_of_mem c hr)
    by_cases hp : c = '+'
    · unfold queryUnescape
      rw [if_neg hc, if_pos hp, ih hr]
      simp [plusToSpace, hp]
    · rw [queryUnescape_cons c rest hc hp, ih hr]
      simp [plusToSpace, hp]

theorem queryUnescape_rooted (t d : Str) (h : queryUnescape ('/' :: t) = some d) :
    ∃ d2, d = '/' :: d2 := by
  rw [queryUnescape_cons '/' t (by decide) (by decide)] at h
  cases hq : queryUnescape t with
  | none => rw [hq] at h; simp at h
  | some a => rw [hq] at h; simp at h; exact ⟨a, h.symm⟩

theorem resolveRequest_decode_some {cwd root raw d : Str} (h : queryUnescape raw = some d) :
    resolveRequest cwd root raw = resolvePath cwd root d := by
  unfold resolveRequest
  rw [h]

theorem resolveRequest_decode_none {cwd root raw : Str} (h : queryUnescape raw = none) :
    resolveRequest cwd root raw = .error .malformedPath := by
  unfold resolveRequest
  rw [h]

/-- Helper: on a canonical absolute served root and a rooted decoded
path, the resolution pipeline of handleRequest accepts and produces the
canonical concatenation of the root's segments with the cleaned request
segments. -/
theorem resolvePath_rooted (cwd : Str) (rs : List Seg) (decoded : Str)
    (hrs : ∀ x ∈ rs, goodSeg x ∧ '/' ∉ x) (hd : isAbsL decoded = true) :
    resolvePath cwd ('/' :: joinSegs rs) decoded =
      .ok ('/' :: joinSegs (rs ++ cleanSegs true (splitSlash decoded))) := by
  set ps := cleanSegs true (splitSlash decoded) with hps_def
  have hps : ∀ x ∈ ps, goodSeg x ∧ '/' ∉ x := fun x hx =>
    ⟨cleanSegs_good _ x hx, cleanSegs_no_slash _ (mem_splitSlash_no_slash decoded) x hx⟩
  have hcd : pathClean decoded = '/' :: joinSegs ps := pathClean_rooted decoded hd
  have hnd : ('/' : Char) :: joinSegs ps ≠ ['.'] := by simp
  have hall : ∀ x ∈ rs ++ ps, goodSeg x ∧ '/' ∉ x := by
    intro x hx
    rcases List.mem_append.mp hx with h | h
    · exact hrs x h
    · exact hps x h
  have hfull : filepathJoin ('/' :: joinSegs rs) ('/' :: joinSegs ps) =
      '/' :: joinSegs (rs ++ ps) := filepathJoin_canon rs ps hrs hps
  have habs1 : filepathAbs cwd ('/' :: joinSegs rs) = '/' :: joinSegs rs := by
    unfold filepathAbs
    rw [if_pos (by simp [isAbsL])]
    exact pathClean_canon rs hrs
  have habs2 : filepathAbs cwd ('/' :: joinSegs (rs ++ ps)) = '/' :: joinSegs (rs ++ ps) := by
    unfold filepathAbs
    rw [if_pos (by simp [isAbsL])]
    exact pathClean_canon _ hall
  unfold resolvePath
  simp only [hcd, if_neg hnd, hfull, habs1, habs2, isPrefixOf_canon rs ps, if_true]

/-- C1: for every raw request path (an HTTP request path, which begins
with a separator) handled against an absolute, normalized served root,
whenever resolution succeeds the path that handleRequest goes on to stat
and serve is component-wise within the served root; any other outcome of
the pipeline is a rejection, so no filesystem path outside the served
root is ever served. -/
theorem c1_resolved_path_within_root (cwd root raw p : Str)
    (hroot : isAbsL root = true) (hclean : pathClean root = root)
    (hraw : isAbsL raw = true)
    (hres : resolveRequest cwd root raw = .ok p) :
    isWithinRoot root p = true := by
  obtain ⟨rs, hrs, hre⟩ := exists_canon root hroot hclean
  cases hq : queryUnescape raw with
  | none => rw [resolveRequest_decode_none hq] at hres; simp at hres
  | some decoded =>
    obtain ⟨t, ht⟩ : ∃ t, raw = '/' :: t := by
      cases raw with
      | nil => simp [isAbsL] at hraw
      | cons c r =>
        have : c = '/' := by simpa [isAbsL] using hraw
        exact ⟨r, by rw [this]⟩
    obtain ⟨d2, hd2⟩ := queryUnescape_rooted t decoded (ht ▸ hq)
    have hdrooted : isAbsL decoded = true := by rw [hd2]; rfl
    rw [resolveRequest_decode_some hq, hre,
      resolvePath_rooted cwd rs decoded hrs hdrooted] at hres
    have hp : p = '/' :: joinSegs (rs ++ cleanSegs true (splitSlash decoded)) :=
      (Except.ok.inj hres).symm
    set ps := cleanSegs true (splitSlash decoded) with hps_def
    have hps : ∀ x ∈ ps, goodSeg x ∧ '/' ∉ x := fun x hx =>
      ⟨cleanSegs_good _ x hx, cleanSegs_no_slash _ (mem_splitSlash_no_slash decoded) x hx⟩
    have hall : ∀ x ∈ rs ++ ps, goodSeg x ∧ '/' ∉ x := by
      intro x hx
      rcases List.mem_append.mp hx with h | h
      · exact hrs x h
      · exact hps x h
    rw [hp]
    unfold isWithinRoot
    rw [hre, segsOf_canon rs hrs, segsOf_canon (rs ++ ps) hall]
    simp only [isAbsL, List.head?_cons, Bool.and_eq_true, decide_eq_true_eq]
    exact ⟨trivial, List.isPrefixOf_iff_prefix.mpr (List.prefix_append rs ps)⟩

/-- C1 witness: a concrete traversal attempt against the root /media is
resolved to a path inside the root. -/
theorem c1_resolved_path_within_root_witness :
    isAbsL "/media".data = true ∧ pathClean "/media".data = "/media".data ∧
    isAbsL "/../../etc/passwd".data = true ∧
    resolveRequest "/".data "/media".data "/../../etc/passwd".data =
      .ok "/media/etc/passwd".data ∧
    isWithinRoot "/media".data "/media/etc/passwd".data = true :=
  ⟨by decide, by decide, by decide, by decide,
    c1_resolved_path_within_root "/".data "/media".data "/../../etc/passwd".data
      "/media/etc/passwd".data (by decide) (by decide) (by decide) (by decide)⟩

/-- C2: evaluation of the containment check of config.go IsValidMediaPath
at the served root /data and the request path ../data-other.  The
strings.HasPrefix comparison accepts the candidate, whose joined absolute
form is the sibling directory /data-other, even though that path is not
component-wise within the root — the sibling-directory false positive
the spec's section 4.1 mandates the check must reject. -/
theorem c2_sibling_prefix_accepted :
    isValidMediaPath "/".data "/data".data "../data-other".data = true ∧
    filepathAbs "/".data
      (filepathJoin (filepathAbs "/".data "/data".data) (pathClean "../data-other".data)) =
      "/data-other".data ∧
    isWithinRoot "/data".data "/data-other".data = false :=
  ⟨by decide, by decide, by decide⟩

theorem handleRequestModel_ok {cwd root raw p : Str} {st : Str → StatResult}
    (hres : resolveRequest cwd root raw = .ok p) :
    handleRequestModel cwd root raw st = dispatchStat p raw (st p) := by
  unfold handleRequestModel
  rw [hres]

theorem handleRequestModel_malformed {cwd root raw : Str} {st : Str → StatResult}
    (hres : resolveRequest cwd root raw = .error .malformedPath) :
    handleRequestModel cwd root raw st =
      { status := 400, body := "Invalid URL path", logged := [] } := by
  unfold handleRequestModel
  rw [hres]

theorem handleRequestModel_outside {cwd root raw : Str} {st : Str → StatResult}
    (hres : resolveRequest cwd root raw = .error .outsideRoot) :
    handleRequestModel cwd root raw st =
      { status := 403, body := "Forbidden", logged := [] } := by
  unfold handleRequestModel
  rw [hres]

/-- C7 counterexample: a POST request for an existing directory on the
browse path is answered 200 (the listing is served exactly as for GET),
not 405 Method Not Allowed. -/
theorem c7_post_not_rejected :
    serverStatus "POST" "/".data "/media".data "/".data (fun _ => .found true) = 200 ∧
    (200 : Nat) ≠ 405 :=
  ⟨by decide, by decide⟩

/-- C7 amended: the browse path never answers 405 for any method.  The
CORS middleware answers OPTIONS with 200, and handleRequest never reads
the request method, so every non-OPTIONS method is processed exactly as
GET; the statuses the handler can produce are 400, 403, 404, 500 and the
success statuses, none of which is 405. -/
theorem c7_amended_no_405 (method : String) (cwd root raw : Str) (st : Str → StatResult) :
    serverStatus method cwd root raw st ≠ 405 ∧
    (method ≠ "OPTIONS" →
      serverStatus method cwd root raw st = serverStatus "GET" cwd root raw st) := by
  constructor
  · unfold serverStatus
    by_cases hm : method = "OPTIONS"
    · simp [hm]
    · rw [if_neg hm]
      cases hres : resolveRequest cwd root raw with
      | error e =>
        cases e with
        | malformedPath => rw [handleRequestModel_malformed hres]; simp
        | outsideRoot => rw [handleRequestModel_outside hres]; simp
      | ok p =>
        rw [handleRequestModel_ok hres]
        cases hst : st p <;> simp [dispatchStat]
  · intro hm
    unfold serverStatus
    rw [if_neg hm, if_neg (by decide)]

/-- C7 amended witness at a concrete POST request. -/
theorem c7_amended_no_405_witness :
    serverStatus "POST" "/".data "/media".data "/".data (fun _ => .found true) ≠ 405 ∧
    ("POST" ≠ "OPTIONS" →
      serverStatus "POST" "/".data "/media".data "/".data (fun _ => .found true) =
        serverStatus "GET" "/".data "/media".data "/".data (fun _ => .found true)) :=
  c7_amended_no_405 "POST" "/".data "/media".data "/".data (fun _ => .found true)

/-- C8: when percent-decoding of the raw path fails, handleRequest
answers 400 with a generic body.  The reply is a constant independent of
the stat oracle and of the served root, which expresses that no cleaning,
joining or filesystem access takes place for such a path: decoding is the
first step and its failure returns immediately. -/
theorem c8_malformed_decode_first (cwd root raw : Str) (st : Str → StatResult)
    (h : queryUnescape raw = none) :
    handleRequestModel cwd root raw st =
      { status := 400, body := "Invalid URL path", logged := [] } := by
  unfold handleRequestModel
  rw [resolveRequest_decode_none h]

/-- C8 witness: a concrete invalid escape sequence. -/
theorem c8_malformed_decode_first_witness :
    queryUnescape "/%zz".data = none ∧
    handleRequestModel "/".data "/media".data "/%zz".data (fun _ => .ioError "disk gone") =
      { status := 400, body := "Invalid URL path", logged := [] } :=
  ⟨by decide,
    c8_malformed_decode_first "/".data "/media".data "/%zz".data
      (fun _ => .ioError "disk gone") (by decide)⟩

/-- C9: once a path is validated, dispatch answers 404 exactly when the
stat oracle reports the target missing; every other stat error is
answered 500 with the generic body, the cause appearing only in the log
line and never in the client body. -/
theorem c9_stat_error_mapping (cwd root raw p : Str) (st : Str → StatResult)
    (hres : resolveRequest cwd root raw = .ok p) :
    ((handleRequestModel cwd root raw st).status = 404 ↔ st p = .notExist) ∧
    (st p = .notExist → (handleRequestModel cwd root raw st).body = "404 page not found") ∧
    (∀ msg, st p = .ioError msg →
      (handleRequestModel cwd root raw st).status = 500 ∧
      (handleRequestModel cwd root raw st).body = "Internal server error" ∧
      (handleRequestModel cwd root raw st).logged =
        ["Error accessing file " ++ String.mk p ++ ": " ++ msg]) := by
  rw [handleRequestModel_ok hres]
  refine ⟨?_, ?_, ?_⟩
  · cases hst : st p <;> simp [dispatchStat, hst]
  · intro hst
    simp [dispatchStat, hst]
  · intro msg hst
    simp [dispatchStat, hst]

/-- C9 witness: a missing target is answered 404. -/
theorem c9_stat_error_mapping_witness :
    (handleRequestModel "/".data "/m".data "/x".data (fun _ => .notExist)).status = 404 :=
  ((c9_stat_error_mapping "/".data "/m".data "/x".data "/m/x".data
    (fun _ => .notExist) (by decide)).1).mpr rfl

/-! ## Toolkit: the plus sign under query unescaping -/

theorem plusToSpace_ne_self (s : Str) (h : '+' ∈ s) : plusToSpace s ≠ s := by
  induction s with
  | nil => simp at h
  | cons c rest ih =>
    unfold plusToSpace
    simp only [List.map_cons]
    by_cases hc : c = '+'
    · intro he
      injection he with h1 h2
      rw [hc] at h1
      simp at h1
    · rcases List.mem_cons.mp h with h1 | h2
      · exact absurd h1.symm hc
      · intro he
        injection he with ha hb
        exact ih h2 hb

theorem plusToSpace_eq_of_no_space (s t : Str) (ht : ' ' ∉ t) (h : plusToSpace s = t) :
    s = t := by
  induction s generalizing t with
  | nil => rw [← h]; rfl
  | cons c rest ih =>
    cases t with
    | nil => simp [plusToSpace] at h
    | cons d ds =>
      unfold plusToSpace at h
      simp only [List.map_cons] at h
      injection h with h1 h2
      have hd : d ≠ ' ' := fun he => ht (by simp [he])
      have hds : ' ' ∉ ds := fun he => ht (List.mem_cons_of_mem d he)
      have hc : c = d := by
        by_cases hc2 : c = '+'
        · rw [if_pos hc2] at h1; exact absurd h1 (Ne.symm hd)
        · rw [if_neg hc2] at h1; exact h1
      rw [hc, ih ds hds h2]

theorem mem_of_mem_plusToSpace (s : Str) (x : Char) (hx : x ∈ plusToSpace s) :
    x ∈ s ∨ x = ' ' := by
  unfold plusToSpace at hx
  rcases List.mem_map.mp hx with ⟨c, hc, he⟩
  by_cases h : c = '+'
  · right; rw [← he, if_pos h]
  · left; rw [← he, if_neg h]; exact hc

/-- C10: the handler decodes the request path with url.QueryUnescape,
which is query-component unescaping: a literal plus sign in the raw path
becomes a space.  A request for the literal path of an entry whose name
contains a plus therefore resolves to a different path, with a space in
place of each plus, and the entry with the literal name is never
reached. -/
theorem c10_plus_becomes_space (cwd root name : Str)
    (hroot : isAbsL root = true) (hclean : pathClean root = root) (hnr : root ≠ ['/'])
    (hns : '/' ∉ name) (hnp : '%' ∉ name)
    (hne : name ≠ []) (hd1 : name ≠ ['.']) (hd2 : name ≠ ['.', '.'])
    (hplus : '+' ∈ name) :
    resolveRequest cwd root ('/' :: name) = .ok (root ++ '/' :: plusToSpace name) ∧
    root ++ '/' :: plusToSpace name ≠ root ++ '/' :: name := by
  obtain ⟨rs, hrs, hre⟩ := exists_canon root hroot hclean
  have hrs_ne : rs ≠ [] := by
    intro h
    rw [h] at hre
    exact hnr (by rw [hre]; rfl)
  set pn := plusToSpace name with hpn_def
  have hpn_ne : pn ≠ [] := by
    intro h
    rw [hpn_def] at h
    unfold plusToSpace at h
    exact hne (List.map_eq_nil_iff.mp h)
  have hpn_slash : '/' ∉ pn := by
    intro h
    rcases mem_of_mem_plusToSpace name '/' h with h1 | h1
    · exact hns h1
    · simp at h1
  have hpn_d1 : pn ≠ ['.'] := fun h => hd1 (plusToSpace_eq_of_no_space name ['.'] (by decide) h)
  have hpn_d2 : pn ≠ ['.', '.'] :=
    fun h => hd2 (plusToSpace_eq_of_no_space name ['.', '.'] (by decide) h)
  have hpn_good : goodSeg pn ∧ '/' ∉ pn := ⟨⟨hpn_ne, hpn_d1, hpn_d2⟩, hpn_slash⟩
  have hdecode : queryUnescape ('/' :: name) = some ('/' :: pn) := by
    have hnp2 : '%' ∉ ('/' :: name) := by
      intro h
      rcases List.mem_cons.mp h with h1 | h1
      · simp at h1
      · exact hnp h1
    rw [queryUnescape_no_pct ('/' :: name) hnp2]
    simp [plusToSpace, hpn_def]
  constructor
  · rw [resolveRequest_decode_some hdecode, hre,
      resolvePath_rooted cwd rs ('/' :: pn) hrs (by rfl)]
    have hsplit : cleanSegs true (splitSlash ('/' :: pn)) = [pn] := by
      rw [splitSlash_cons_slash]
      have := cleanSegs_block [pn] (by intro x hx; rw [List.mem_singleton.mp hx]; exact hpn_good)
      simpa [joinSegs] using this
    rw [hsplit]
    have hj : joinSegs (rs ++ [pn]) = joinSegs rs ++ '/' :: pn := by
      rw [joinSegs_append rs [pn] hrs_ne (by simp)]
      rfl
    rw [hj]
    rfl
  · intro h
    have h2 : '/' :: pn = '/' :: name := List.append_cancel_left h
    have h3 : pn = name := by injection h2
    exact plusToSpace_ne_self name hplus h3

/-- C10 witness: the raw path /a+b.mp4 resolves to /media/a b.mp4, not to
/media/a+b.mp4. -/
theorem c10_plus_becomes_space_witness :
    resolveRequest "/".data "/media".data ('/' :: "a+b.mp4".data) =
      .ok ("/media".data ++ '/' :: plusToSpace "a+b.mp4".data) ∧
    "/media".data ++ '/' :: plusToSpace "a+b.mp4".data ≠
      "/media".data ++ '/' :: "a+b.mp4".data :=
  c10_plus_becomes_space "/".data "/media".data "a+b.mp4".data
    (by decide) (by decide) (by decide) (by decide) (by decide) (by decide)
    (by decide) (by decide) (by decide)

/-! ## Toolkit: the listing sort order -/

theorem char_toNat_inj (a b : Char) (h : a.toNat = b.toNat) : a = b := by
  exact_mod_cast Char.ext (UInt32.toNat.inj h)

theorem lexLt_asymm (x y : Str) (h : lexLt x y = true) : lexLt y x = false := by
  induction x generalizing y with
  | nil =>
    cases y with
    | nil => simp [lexLt] at h
    | cons b bs => simp [lexLt]
  | cons a as ih =>
    cases y with
    | nil => simp [lexLt] at h
    | cons b bs =>
      unfold lexLt at h ⊢
      by_cases h1 : a.toNat < b.toNat
      · rw [if_neg (by omega), if_pos h1]
      · rw [if_neg h1] at h
        by_cases h2 : b.toNat < a.toNat
        · rw [if_pos h2] at h; simp at h
        · rw [if_neg h2] at h
          rw [if_neg h2, if_neg h1]
          exact ih bs h

theorem lexLt_trans (x y z : Str) (h1 : lexLt x y = true) (h2 : lexLt y z = true) :
    lexLt x z = true := by
  induction x generalizing y z with
  | nil =>
    cases z with
    | nil =>
      cases y with
      | nil => simp [lexLt] at h1
      | cons b bs => simp [lexLt] at h2
    | cons c cs => simp [lexLt]
  | cons a as ih =>
    cases y with
    | nil => simp [lexLt] at h1
    | cons b bs =>
      cases z with
      | nil => simp [lexLt] at h2
      | cons c cs =>
        unfold lexLt at h1 h2 ⊢
        by_cases hab : a.toNat < b.toNat
        · by_cases hbc : b.toNat < c.toNat
          · rw [if_pos (by omega)]
          · rw [if_neg hbc] at h2
            by_cases hcb : c.toNat < b.toNat
            · rw [if_pos hcb] at h2; simp at h2
            · have : b.toNat = c.toNat := by omega
              rw [if_pos (by omega)]
        · rw [if_neg hab] at h1
          by_cases hba : b.toNat < a.toNat
          · rw [if_pos hba] at h1; simp at h1
          · rw [if_neg hba] at h1
            have hab2 : a.toNat = b.toNat := by omega
            by_cases hbc : b.toNat < c.toNat
            · rw [if_pos (by omega)]
            · rw [if_neg hbc] at h2
              by_cases hcb : c.toNat < b.toNat
              · rw [if_pos hcb] at h2; simp at h2
              · rw [if_neg hcb] at h2
                rw [if_neg (by omega), if_neg (by omega)]
                exact ih bs cs h1 h2

theorem lexLt_connex (x y : Str) (h1 : lexLt x y = false) (h2 : lexLt y x = false) :
    x = y := by
  induction x generalizing y with
  | nil =>
    cases y with
    | nil => rfl
    | cons b bs => simp [lexLt] at h1
  | cons a as ih =>
    cases y with
    | nil => simp [lexLt] at h2
    | cons b bs =>
      unfold lexLt at h1 h2
      by_cases hab : a.toNat < b.toNat
      · rw [if_pos hab] at h1; simp at h1
      · rw [if_neg hab] at h1
        by_cases hba : b.toNat < a.toNat
        · rw [if_pos hba] at h2; simp at h2
        · rw [if_neg hba] at h1
          rw [if_neg hba, if_neg hab] at h2
          have hc : a = b := char_toNat_inj a b (by omega)
          rw [hc, ih bs h1 h2]

theorem keyLt_asymm (k1 k2 : Nat × Str) (h : keyLt k1 k2 = true) : keyLt k2 k1 = false := by
  unfold keyLt at h ⊢
  by_cases h1 : k1.1 < k2.1
  · rw [if_neg (by omega), if_pos (by omega)]
  · rw [if_neg h1] at h
    by_cases h2 : k2.1 < k1.1
    · rw [if_pos h2] at h; simp at h
    · rw [if_neg h2] at h
      rw [if_neg h2, if_neg h1]
      exact lexLt_asymm _ _ h

theorem keyLt_trans (k1 k2 k3 : Nat × Str) (h1 : keyLt k1 k2 = true)
    (h2 : keyLt k2 k3 = true) : keyLt k1 k3 = true := by
  unfold keyLt at h1 h2 ⊢
  by_cases ha : k1.1 < k2.1
  · by_cases hb : k2.1 < k3.1
    · rw [if_pos (by omega)]
    · rw [if_neg hb] at h2
      by_cases hc : k3.1 < k2.1
      · rw [if_pos hc] at h2; simp at h2
      · rw [if_pos (by omega)]
  · rw [if_neg ha] at h1
    by_cases hd : k2.1 < k1.1
    · rw [if_pos hd] at h1; simp at h1
    · rw [if_neg hd] at h1
      by_cases hb : k2.1 < k3.1
      · rw [if_pos (by omega)]
      · rw [if_neg hb] at h2
        by_cases hc : k3.1 < k2.1
        · rw [if_pos hc] at h2; simp at h2
        · rw [if_neg hc] at h2
          rw [if_neg (by omega), if_neg (by omega)]
          exact lexLt_trans _ _ _ h1 h2

theorem keyLt_connex (k1 k2 : Nat × Str) (h1 : keyLt k1 k2 = false)
    (h2 : keyLt k2 k1 = false) : k1 = k2 := by
  unfold keyLt at h1 h2
  by_cases ha : k1.1 < k2.1
  · rw [if_pos ha] at h1; simp at h1
  · rw [if_neg ha] at h1
    by_cases hb : k2.1 < k1.1
    · rw [if_pos hb] at h2; simp at h2
    · rw [if_neg hb] at h1
      rw [if_neg hb, if_neg ha] at h2
      have he1 : k1.1 = k2.1 := by omega
      have he2 : k1.2 = k2.2 := lexLt_connex _ _ h1 h2
      exact Prod.ext he1 he2

theorem lessFileInfo_eq_keyLt (a b : FileInfo) :
    lessFileInfo a b = keyLt (fileKey a) (fileKey b) := by
  unfold lessFileInfo keyLt fileKey
  cases ha : a.IsDir <;> cases hb : b.IsDir <;> simp [lowerName]

instance : IsTotal FileInfo fileLE := by
  constructor
  intro a b
  unfold fileLE
  rw [lessFileInfo_eq_keyLt, lessFileInfo_eq_keyLt]
  by_cases h : keyLt (fileKey a) (fileKey b) = true
  · left; exact keyLt_asymm _ _ h
  · right
    cases h2 : keyLt (fileKey a) (fileKey b)
    · rfl
    · exact absurd h2 h

instance : IsTrans FileInfo fileLE := by
  constructor
  intro a b c hab hbc
  unfold fileLE at hab hbc ⊢
  rw [lessFileInfo_eq_keyLt] at hab hbc ⊢
  cases hca : keyLt (fileKey c) (fileKey a)
  · rfl
  · exfalso
    cases hab2 : keyLt (fileKey a) (fileKey b)
    · have he : fileKey a = fileKey b := keyLt_connex _ _ hab2 hab
      have hcb : keyLt (fileKey c) (fileKey b) = true := by rw [← he]; exact hca
      rw [hcb] at hbc
      simp at hbc
    · have hcb : keyLt (fileKey c) (fileKey b) = true := keyLt_trans _ _ _ hca hab2
      rw [hcb] at hbc
      simp at hbc

/-- C5: every produced directory listing is ordered with all directory
records before all file records, and records with equal directory flags
in case-insensitively nondecreasing name order (pairwise throughout the
output). -/
theorem c5_listing_sort_order (mimeOf : Str → Str) (urlPath : Str)
    (entries : List DirEntry) :
    List.Pairwise
      (fun a b => (b.IsDir = true → a.IsDir = true) ∧
        (a.IsDir = b.IsDir → lexLt (lowerName b) (lowerName a) = false))
      (buildListing mimeOf urlPath entries) := by
  have hs : List.Sorted fileLE
      (List.insertionSort fileLE (entries.filterMap (mkRecord mimeOf urlPath))) :=
    List.sorted_insertionSort fileLE _
  unfold buildListing sortFiles
  refine hs.imp ?_
  intro a b hab
  unfold fileLE lessFileInfo at hab
  by_cases hd : b.IsDir = a.IsDir
  · constructor
    · intro hb; rw [← hd]; exact hb
    · intro _
      rw [if_neg (by rw [hd]; simp)] at hab
      exact hab
  · rw [if_pos (by simp [hd])] at hab
    constructor
    · intro hb; rw [hb] at hab; simp at hab
    · intro he; exact absurd he.symm hd

/-- C6 counterexample: two distinct file records whose names are equal
case-insensitively tie under the sort.Slice comparison (neither is less
than the other), and sorting the two orders of this two-element set
returns them unchanged, so the sorted output differs between the two
input permutations of the same set. -/
theorem c6_tie_depends_on_input_order :
    lessFileInfo
      (FileInfo.mk "A.txt".data "/A.txt".data 0 0 false [] [])
      (FileInfo.mk "a.txt".data "/a.txt".data 0 0 false [] []) = false ∧
    lessFileInfo
      (FileInfo.mk "a.txt".data "/a.txt".data 0 0 false [] [])
      (FileInfo.mk "A.txt".data "/A.txt".data 0 0 false [] []) = false ∧
    sortFiles
      [FileInfo.mk "A.txt".data "/A.txt".data 0 0 false [] [],
        FileInfo.mk "a.txt".data "/a.txt".data 0 0 false [] []] ≠
    sortFiles
      [FileInfo.mk "a.txt".data "/a.txt".data 0 0 false [] [],
        FileInfo.mk "A.txt".data "/A.txt".data 0 0 false [] []] :=
  ⟨by decide, by decide, by decide⟩

/-- C6 amended: the sort output is input-order independent exactly on
record sets whose sort keys (directory flag plus lower-cased name) are
pairwise distinct: for any two permutations of such a set the sorted
outputs coincide.  When two records tie (names equal case-insensitively)
the comparison does not determine their relative order and the unstable
sort.Slice gives no further guarantee. -/
theorem c6_amended_sort_input_independent (l1 l2 : List FileInfo)
    (hperm : l1.Perm l2) (hnodup : (l1.map fileKey).Nodup) :
    sortFiles l1 = sortFiles l2 := by
  have hs1 : List.Sorted fileLE (List.insertionSort fileLE l1) :=
    List.sorted_insertionSort fileLE l1
  have hs2 : List.Sorted fileLE (List.insertionSort fileLE l2) :=
    List.sorted_insertionSort fileLE l2
  have hp1 : (List.insertionSort fileLE l1).Perm l1 := List.perm_insertionSort fileLE l1
  have hp2 : (List.insertionSort fileLE l2).Perm l2 := List.perm_insertionSort fileLE l2
  have hp : (List.insertionSort fileLE l1).Perm (List.insertionSort fileLE l2) :=
    hp1.trans (hperm.trans hp2.symm)
  have hkey : ∀ l : List FileInfo, (l.map fileKey).Nodup →
      List.Sorted fileLE l →
      List.Pairwise (fun a b => keyLt (fileKey a) (fileKey b) = true) l := by
    intro l hnd hsort
    have hne : List.Pairwise (fun a b => fileKey a ≠ fileKey b) l :=
      List.pairwise_map.mp hnd
    have hcomb := List.Pairwise.and hsort hne
    refine hcomb.imp ?_
    intro a b hab
    rcases hab with ⟨hle, hne2⟩
    unfold fileLE at hle
    rw [lessFileInfo_eq_keyLt] at hle
    cases h : keyLt (fileKey a) (fileKey b)
    · exact absurd (keyLt_connex _ _ h hle) hne2
    · rfl
  have hnd1 : ((List.insertionSort fileLE l1).map fileKey).Nodup :=
    ((hp1.map fileKey).nodup_iff).mpr hnodup
  have hnd2 : ((List.insertionSort fileLE l2).map fileKey).Nodup :=
    ((hp2.map fileKey).nodup_iff).mpr (((hperm.map fileKey).nodup_iff).mp hnodup)
  have hk1 := hkey _ hnd1 hs1
  have hk2 := hkey _ hnd2 hs2
  haveI : IsAntisymm FileInfo (fun a b => keyLt (fileKey a) (fileKey b) = true) :=
    ⟨fun a b h1 h2 => absurd h2 (by rw [keyLt_asymm _ _ h1]; simp)⟩
  exact List.eq_of_perm_of_sorted hp hk1 hk2

/-- C6 amended witness: two permutations of a tie-free two-record set
sort to the same output. -/
theorem mem_buildListing (mimeOf : Str → Str) (urlPath : Str) (entries : List DirEntry)
    (f : FileInfo) (hf : f ∈ buildListing mimeOf urlPath entries) :
    ∃ e ∈ entries, mkRecord mimeOf urlPath e = some f := by
  unfold buildListing sortFiles at hf
  rw [List.mem_insertionSort] at hf
  rcases List.mem_filterMap.mp hf with ⟨e, he, hmk⟩
  exact ⟨e, he, hmk⟩

theorem mkRecord_some (mimeOf : Str → Str) (urlPath : Str) (e : DirEntry) (f : FileInfo)
    (hmk : mkRecord mimeOf urlPath e = some f) :
    e.infoErr = false ∧ e.name.head? ≠ some '.' ∧ f.Name = e.name ∧ f.IsDir = e.isDir ∧
    f.Path = pathJoin urlPath e.name ∧ f.EncodedPath = pathEscape (pathJoin urlPath e.name) := by
  unfold mkRecord at hmk
  by_cases h1 : e.infoErr = true
  · rw [if_pos h1] at hmk; simp at hmk
  · rw [if_neg h1] at hmk
    by_cases h2 : e.name.head? = some '.'
    · rw [if_pos h2] at hmk; simp at hmk
    · rw [if_neg h2] at hmk
      have h3 := Option.some.inj hmk
      refine ⟨by simpa using h1, h2, ?_, ?_, ?_, ?_⟩ <;> rw [← h3]

/-- C4: no record of any produced directory listing has a name beginning
with the hidden-entry designator: an entry named with a leading dot, file
or directory, is filtered out before a record is built, so it never
appears in the listing. -/
theorem c4_hidden_never_listed (mimeOf : Str → Str) (urlPath : Str)
    (entries : List DirEntry) :
    (buildListing mimeOf urlPath entries).all
      (fun f => f.Name.head? ≠ some '.') = true := by
  rw [List.all_eq_true]
  intro f hf
  rcases mem_buildListing mimeOf urlPath entries f hf with ⟨e, he, hmk⟩
  rcases mkRecord_some mimeOf urlPath e f hmk with ⟨h1, h2, h3, h4⟩
  rw [h3]
  simpa using h2

/-! ## Toolkit: escaping round trip -/

theorem hexUpper_roundtrip (n : Nat) (h : n < 16) :
    isHexDigit (hexUpper n) = true ∧ hexVal (hexUpper n) = n := by
  interval_cases n <;> exact ⟨by decide, by decide⟩

theorem shouldEscapePS_pct : shouldEscapePS '%' = true := by decide

theorem plusToSpace_id (s : Str) (h : '+' ∉ s) : plusToSpace s = s := by
  induction s with
  | nil => rfl
  | cons c rest ih =>
    have hc : c ≠ '+' := fun he => h (by simp [he])
    have hr : '+' ∉ rest := fun he => h (List.mem_cons_of_mem c he)
    unfold plusToSpace
    simp only [List.map_cons, if_neg hc]
    rw [show List.map (fun c => if c = '+' then ' ' else c) rest = plusToSpace rest from rfl,
      ih hr]

theorem queryUnescape_pct (a b : Char) (t : Str) (ha : isHexDigit a = true)
    (hb : isHexDigit b = true) :
    queryUnescape ('%' :: a :: b :: t) =
      (queryUnescape t).map (fun r => Char.ofNat (16 * hexVal a + hexVal b) :: r) := by
  conv_lhs => unfold queryUnescape
  rw [if_pos rfl]
  show (if (isHexDigit a && isHexDigit b) = true then
    (queryUnescape t).map (fun r => Char.ofNat (16 * hexVal a + hexVal b) :: r)
    else none) = _
  rw [ha, hb]
  simp

theorem queryUnescape_pathEscape (s : Str) (h : ∀ c ∈ s, c.toNat < 128 ∧ c ≠ '+') :
    queryUnescape (pathEscape s) = some s := by
  induction s with
  | nil => rfl
  | cons c rest ih =>
    have hc := h c (List.mem_cons_self c rest)
    have hrest : ∀ x ∈ rest, x.toNat < 128 ∧ x ≠ '+' :=
      fun x hx => h x (List.mem_cons_of_mem c hx)
    by_cases he : shouldEscapePS c = true
    · have hu : pathEscape (c :: rest) = '%' :: hexUpper (c.toNat / 16 % 16) ::
          hexUpper (c.toNat % 16) :: pathEscape rest := by
        conv_lhs => unfold pathEscape
        rw [if_pos he]
      rw [hu]
      have hv : c.toNat / 16 % 16 < 16 := by omega
      have hw : c.toNat % 16 < 16 := by omega
      have ha := hexUpper_roundtrip _ hv
      have hb := hexUpper_roundtrip _ hw
      rw [queryUnescape_pct _ _ _ ha.1 hb.1, ih hrest]
      simp only [Option.map_some']
      congr 1
      rw [ha.2, hb.2]
      have harith : 16 * (c.toNat / 16 % 16) + c.toNat % 16 = c.toNat := by omega
      rw [harith, Char.ofNat_toNat]
    · have hu : pathEscape (c :: rest) = c :: pathEscape rest := by
        conv_lhs => unfold pathEscape
        rw [if_neg he]
      have hcp : c ≠ '%' := by
        intro hcc
        rw [hcc] at he
        exact he shouldEscapePS_pct
      rw [hu, queryUnescape_cons c _ hcp hc.2, ih hrest]
      rfl

theorem mem_joinSegs_append_single (us : List Seg) (n : Seg) (x : Char)
    (hx : x ∈ joinSegs (us ++ [n])) : x ∈ joinSegs us ∨ x = '/' ∨ x ∈ n := by
  cases us with
  | nil =>
    right; right
    simpa [joinSegs] using hx
  | cons u us2 =>
    rw [joinSegs_append (u :: us2) [n] (by simp) (by simp)] at hx
    rcases List.mem_append.mp hx with h1 | h2
    · left; exact h1
    · rcases List.mem_cons.mp h2 with h3 | h4
      · right; left; exact h3
      · right; right; simpa [joinSegs] using h4

/-- C3 counterexample: two listings, one with an entry named a+b.mp4 and
one with an entry named c%41.mp4, each produce a record whose encoded
link does not round-trip to the entry it was built from.  For the plus
name, percent-decoding the link already turns the plus into a space, and
resolution reaches /media/a b.mp4 instead of the entry's path
/media/a+b.mp4.  For the percent name the link itself decodes correctly,
but resolution percent-decodes a second time, so %41 becomes A and
resolution reaches /media/cA.mp4 instead of /media/c%41.mp4. -/
theorem c3_roundtrip_fails :
    (FileInfo.mk "a+b.mp4".data "/a+b.mp4".data 5 0 false octetStream "%2Fa+b.mp4".data) ∈
      buildListing (fun _ => []) "/".data [DirEntry.mk "a+b.mp4".data 5 0 false false] ∧
    queryUnescape "%2Fa+b.mp4".data = some "/a b.mp4".data ∧
    resolveRequest "/".data "/media".data "/a b.mp4".data = .ok "/media/a b.mp4".data ∧
    "/media/a b.mp4".data ≠
      filepathJoin (filepathJoin "/media".data "/".data) "a+b.mp4".data ∧
    (FileInfo.mk "c%41.mp4".data "/c%41.mp4".data 5 0 false octetStream
        "%2Fc%2541.mp4".data) ∈
      buildListing (fun _ => []) "/".data [DirEntry.mk "c%41.mp4".data 5 0 false false] ∧
    queryUnescape "%2Fc%2541.mp4".data = some "/c%41.mp4".data ∧
    resolveRequest "/".data "/media".data "/c%41.mp4".data = .ok "/media/cA.mp4".data ∧
    "/media/cA.mp4".data ≠
      filepathJoin (filepathJoin "/media".data "/".data) "c%41.mp4".data := by
  refine ⟨by decide, by decide, by decide, by decide, by decide, by decide, by decide,
    by decide⟩

/-- C3 amended: the round trip does hold for every record of a listing
whose link path is free of the two characters mistreated by the
query-style decoder, the plus sign and the percent sign: percent-decoding
the record's encoded link yields exactly the record's link path, and
resolving that link path reaches exactly the filesystem path of the entry
the record was built from (the listed directory joined with the entry
name). -/
theorem c3_amended_roundtrip (cwd root urlPath : Str) (mimeOf : Str → Str)
    (entries : List DirEntry) (rec : FileInfo)
    (hroot : isAbsL root = true) (hcroot : pathClean root = root)
    (hu : isAbsL urlPath = true) (hcu : pathClean urlPath = urlPath)
    (hnames : ∀ e ∈ entries, e.name ≠ [] ∧ '/' ∉ e.name ∧ e.name ≠ ['.'] ∧
      e.name ≠ ['.', '.'] ∧ (∀ c ∈ e.name, c.toNat < 128))
    (hua : ∀ c ∈ urlPath, c.toNat < 128)
    (hup : '+' ∉ urlPath) (hupct : '%' ∉ urlPath)
    (hrec : rec ∈ buildListing mimeOf urlPath entries)
    (hrp : '+' ∉ rec.Name) (hrpct : '%' ∉ rec.Name) :
    queryUnescape rec.EncodedPath = some rec.Path ∧
    resolveRequest cwd root rec.Path =
      .ok (filepathJoin (filepathJoin root urlPath) rec.Name) := by
  obtain ⟨e, he, hmk⟩ := mem_buildListing mimeOf urlPath entries rec hrec
  obtain ⟨hie, hhid, hname, hdir, hpath, henc⟩ := mkRecord_some mimeOf urlPath e rec hmk
  obtain ⟨us, hus, hue⟩ := exists_canon urlPath hu hcu
  obtain ⟨hn1, hn2, hn3, hn4, hn5⟩ := hnames e he
  have hgoodn : goodSeg e.name ∧ '/' ∉ e.name := ⟨⟨hn1, hn3, hn4⟩, hn2⟩
  have hPath : rec.Path = '/' :: joinSegs (us ++ [e.name]) := by
    rw [hpath, hue]
    exact pathJoin_canon_seg us e.name hus hgoodn
  have hchars : ∀ c ∈ rec.Path, c.toNat < 128 ∧ c ≠ '+' := by
    intro c hcmem
    rw [hPath] at hcmem
    have hslash : ('/' : Char).toNat < 128 ∧ ('/' : Char) ≠ '+' := by decide
    rcases List.mem_cons.mp hcmem with h1 | h2
    · rw [h1]; exact hslash
    · rcases mem_joinSegs_append_single us e.name c h2 with h3 | h3 | h3
      · have hcu2 : c ∈ urlPath := by
          rw [hue]
          exact List.mem_cons_of_mem _ h3
        exact ⟨hua c hcu2, fun hcc => hup (hcc ▸ hcu2)⟩
      · rw [h3]; exact hslash
      · refine ⟨hn5 c h3, fun hcc => ?_⟩
        rw [hcc] at h3
        rw [hname] at hrp
        exact hrp h3
  have hnopct : '%' ∉ rec.Path := by
    intro hcmem
    rw [hPath] at hcmem
    rcases List.mem_cons.mp hcmem with h1 | h2
    · simp at h1
    · rcases mem_joinSegs_append_single us e.name '%' h2 with h3 | h3 | h3
      · exact hupct (by rw [hue]; exact List.mem_cons_of_mem _ h3)
      · simp at h3
      · rw [hname] at hrpct
        exact hrpct h3
  constructor
  · rw [henc, ← hpath]
    exact queryUnescape_pathEscape rec.Path hchars
  · have hnoplus : '+' ∉ rec.Path := fun hmem => (hchars '+' hmem).2 rfl
    have hdec : queryUnescape rec.Path = some rec.Path := by
      rw [queryUnescape_no_pct rec.Path hnopct, plusToSpace_id rec.Path hnoplus]
    obtain ⟨rs, hrs, hre⟩ := exists_canon root hroot hcroot
    have hgall : ∀ x ∈ us ++ [e.name], goodSeg x ∧ '/' ∉ x := by
      intro x hx
      rcases List.mem_append.mp hx with h1 | h1
      · exact hus x h1
      · rw [List.mem_singleton.mp h1]; exact hgoodn
    have hsegs : cleanSegs true (splitSlash rec.Path) = us ++ [e.name] := by
      rw [hPath, splitSlash_cons_slash]
      exact cleanSegs_block (us ++ [e.name]) hgall
    rw [resolveRequest_decode_some hdec]
    conv_lhs => rw [hre]
    rw [resolvePath_rooted cwd rs rec.Path hrs (by rw [hPath]; rfl), hsegs]
    rw [hre, hue, hname]
    rw [filepathJoin_canon rs us hrs hus]
    have hgrsus : ∀ x ∈ rs ++ us, goodSeg x ∧ '/' ∉ x := by
      intro x hx
      rcases List.mem_append.mp hx with h1 | h1
      · exact hrs x h1
      · exact hus x h1
    rw [filepathJoin_canon_seg (rs ++ us) e.name hgrsus hgoodn]
    rw [List.append_assoc]

/-- C3 amended witness: for a root listing record named b.mp4 the
round trip is exact. -/
theorem c3_amended_roundtrip_witness :
    queryUnescape
      (FileInfo.mk "b.mp4".data "/b.mp4".data 5 0 false octetStream
        "%2Fb.mp4".data).EncodedPath =
      some (FileInfo.mk "b.mp4".data "/b.mp4".data 5 0 false octetStream
        "%2Fb.mp4".data).Path ∧
    resolveRequest "/".data "/media".data
      (FileInfo.mk "b.mp4".data "/b.mp4".data 5 0 false octetStream
        "%2Fb.mp4".data).Path =
      .ok (filepathJoin (filepathJoin "/media".data "/".data)
        (FileInfo.mk "b.mp4".data "/b.mp4".data 5 0 false octetStream
          "%2Fb.mp4".data).Name) :=
  c3_amended_roundtrip "/".data "/media".data "/".data (fun _ => [])
    [DirEntry.mk "b.mp4".data 5 0 false false]
    (FileInfo.mk "b.mp4".data "/b.mp4".data 5 0 false octetStream "%2Fb.mp4".data)
    (by decide) (by decide) (by decide) (by decide) (by decide) (by decide)
    (by decide) (by decide) (by decide) (by decide) (by decide)

theorem c6_amended_sort_input_independent_witness :
    sortFiles
      [FileInfo.mk "b.mp4".data "/b.mp4".data 0 0 false [] [],
        FileInfo.mk "sub".data "/sub".data 0 0 true [] []] =
    sortFiles
      [FileInfo.mk "sub".data "/sub".data 0 0 true [] [],
        FileInfo.mk "b.mp4".data "/b.mp4".data 0 0 false [] []] :=
  c6_amended_sort_input_independent _ _ (by decide) (by decide)

example : buildListing (fun _ => []) "/".data
    [DirEntry.mk "a.txt".data 3 0 false false, DirEntry.mk "Z.mp4".data 4 0 false false,
      DirEntry.mk ".hidden".data 1 0 false false, DirEntry.mk "sub".data 0 0 true false] =
    [FileInfo.mk "sub".data "/sub".data 0 0 true [] "%2Fsub".data,
      FileInfo.mk "a.txt".data "/a.txt".data 3 0 false octetStream "%2Fa.txt".data,
      FileInfo.mk "Z.mp4".data "/Z.mp4".data 4 0 false octetStream "%2FZ.mp4".data] := by
  decide

end MediaServer
